import Mathlib

/-!
Verification of the schema-synthesis and selective-merge engine of the
helm-ui backend (`src/backend/main.py`).

The values tree (YAML/JSON data) is embedded as the inductive type `Node`;
Python dicts become insertion-ordered association lists with unique keys,
Python lists become `List Node`, and scalars keep their runtime kind as a
constructor tag (the numeric payload of `float` is abstracted as an integer:
the engine never computes with it, it only branches on the kind).

Each definition mirrors one function of `main.py`:
`normalize_path`, `is_readonly`, `is_enum`, `get_description`, `get_title`,
`get_title_from_path`, `get_type_schema`, `process_value`, `process_object`,
`create_json_schema`, `get_schema`, `is_protected_field`,
`update_nested_dict`.
-/

set_option maxHeartbeats 1600000
set_option maxRecDepth 8192

namespace HelmUI

/-- A YAML/JSON value: the values tree and also the produced schema tree. -/
inductive Node where
  | null : Node
  | bool : Bool → Node
  | int : Int → Node
  | float : Int → Node
  | str : String → Node
  | list : List Node → Node
  | dict : List (String × Node) → Node
  deriving Repr

/-- Python `d[key]` / `d.get(key)` on an insertion-ordered dict. -/
def getKey : List (String × Node) → String → Option Node
  | [], _ => none
  | (k, v) :: rest, key => if k = key then some v else getKey rest key

/-- Python `d[key] = v`: replace in place if present, else append at the end. -/
def setKey : List (String × Node) → String → Node → List (String × Node)
  | [], key, v => [(key, v)]
  | (k, w) :: rest, key, v =>
      if k = key then (k, v) :: rest else (k, w) :: setKey rest key v

/-- Python `s in lst` for a list of strings. -/
def memStr : List String → String → Bool
  | [], _ => false
  | x :: rest, s => if x = s then true else memStr rest s

/-- Python `d.get(key)` for a string-to-string dict. -/
def lookupStr : List (String × String) → String → Option String
  | [], _ => none
  | (k, v) :: rest, key => if k = key then some v else lookupStr rest key

/-- The module-level configuration loaded from `config.yaml`. -/
structure Config where
  readonly_fields : List String
  enum_fields : List String
  field_titles : List (String × String)
  field_descriptions : List (String × String)
  sections_config : List Node
  ui_config : List (String × Node)

/-- One pass of `re.sub(r'\[\d+\]', '', path)`: scan left to right; the
`some acc` state means an unclosed `[` has been read followed by the digit
characters `acc` (reversed).  A completed `[digits]` group is dropped; on a
mismatch the pending characters are emitted literally and scanning resumes. -/
def stripIdxAux : List Char → Option (List Char) → List Char
  | [], none => []
  | [], some acc => '[' :: acc.reverse
  | c :: cs, none =>
      if c = '[' then stripIdxAux cs (some [])
      else c :: stripIdxAux cs none
  | c :: cs, some acc =>
      if c.isDigit then stripIdxAux cs (some (c :: acc))
      else if c = ']' then
        if acc.isEmpty then '[' :: acc.reverse ++ ']' :: stripIdxAux cs none
        else stripIdxAux cs none
      else if c = '[' then ('[' :: acc.reverse) ++ stripIdxAux cs (some [])
      else ('[' :: acc.reverse) ++ c :: stripIdxAux cs none

/-- `normalize_path`: remove array indices like `[0]` from field paths. -/
def normalize_path (path : String) : String :=
  String.mk (stripIdxAux path.data none)

/-- `is_readonly` (inside `create_json_schema`): normalized membership test. -/
def is_readonly (cfg : Config) (path : String) : Bool :=
  memStr cfg.readonly_fields (normalize_path path)

/-- `is_enum` (inside `create_json_schema`): normalized membership test. -/
def is_enum (cfg : Config) (path : String) : Bool :=
  memStr cfg.enum_fields (normalize_path path)

/-- `get_description`: `field_descriptions.get(normalize_path(path), None)`. -/
def get_description (cfg : Config) (path : String) : Option String :=
  lookupStr cfg.field_descriptions (normalize_path path)

/-- Python `path.split('.')[-1]`: the suffix after the last dot. -/
def lastPart : List Char → List Char → List Char
  | [], acc => acc.reverse
  | c :: cs, acc => if c = '.' then lastPart cs [] else lastPart cs (c :: acc)

/-- `re.sub(r'([a-z])([A-Z])', r'\1 \2', s)`: a space between a lowercase
letter immediately followed by an uppercase letter; both matched characters
are consumed before scanning continues. -/
def camelSpace : List Char → List Char
  | [] => []
  | [c] => [c]
  | a :: b :: rest =>
      if a.isLower && b.isUpper then a :: ' ' :: b :: camelSpace rest
      else a :: camelSpace (b :: rest)

/-- Python `s.replace('_', ' ')`. -/
def underscoreSpace (cs : List Char) : List Char :=
  cs.map fun c => if c = '_' then ' ' else c

/-- Python `s.title()`: a letter is uppercased when the previous character is
not a letter, lowercased otherwise. -/
def titleCaseAux : List Char → Bool → List Char
  | [], _ => []
  | c :: rest, prevCased =>
      (if c.isAlpha then (if prevCased then c.toLower else c.toUpper) else c)
        :: titleCaseAux rest c.isAlpha

/-- `get_title_from_path`: derive a human-readable title from a field path. -/
def get_title_from_path (path : String) : String :=
  String.mk
    (titleCaseAux
      (underscoreSpace (camelSpace (stripIdxAux (lastPart path.data []) none)))
      false)

/-- `get_title`: a configured title for the normalized path, else derived. -/
def get_title (cfg : Config) (path : String) : String :=
  match lookupStr cfg.field_titles (normalize_path path) with
  | some t => t
  | none => get_title_from_path path

/-- `get_type_schema`: runtime-kind dispatch, `bool` before `int` before
`float`, everything else (strings included) classified as string. -/
def get_type_schema : Node → Node
  | Node.bool _ => Node.dict [("type", Node.str "boolean")]
  | Node.int _ => Node.dict [("type", Node.str "integer")]
  | Node.float _ => Node.dict [("type", Node.str "number")]
  | _ => Node.dict [("type", Node.str "string")]

/-- Python `s.rstrip('s')`: drop every trailing `'s'` character. -/
def rstripS (s : String) : String :=
  String.mk ((s.data.reverse.dropWhile (fun c => c = 's')).reverse)

/-- The accumulated field path `f"{path}.{key}" if path else key`. -/
def joinKey (path key : String) : String :=
  if path = "" then key else path ++ "." ++ key

/-- `isinstance(v, dict)`. -/
def Node.isDictB : Node → Bool
  | Node.dict _ => true
  | _ => false

/-- `isinstance(current.get(key), list)`. -/
def isSeqO : Option Node → Bool
  | some (Node.list _) => true
  | _ => false

/-- `schema[k] = v` on a schema node (schemas are always dicts; on any other
node the assignment has no effect, a case the source never reaches). -/
def setField (n : Node) (k : String) (v : Node) : Node :=
  match n with
  | Node.dict es => Node.dict (setKey es k v)
  | other => other

/-- `schema.get(k)` on a schema node. -/
def getField (n : Node) (k : String) : Option Node :=
  match n with
  | Node.dict es => getKey es k
  | _ => none

/-- Optional chaining over `getField`, to address nodes deep in a schema. -/
def getF (n : Option Node) (k : String) : Option Node :=
  match n with
  | some m => getField m k
  | none => none

mutual

/-- `process_value` inside `create_json_schema`: classify one node. -/
def process_value (cfg : Config) : Node → String → Node
  | Node.dict obj, field_path =>
      Node.dict [("type", Node.str "object"),
                 ("properties", Node.dict (process_object cfg obj field_path)),
                 ("title", Node.str (get_title cfg field_path))]
  | Node.list [], field_path =>
      Node.dict [("type", Node.str "array"),
                 ("items", Node.dict [("type", Node.str "string")]),
                 ("title", Node.str (get_title cfg field_path))]
  | Node.list (x :: xs), field_path =>
      if is_enum cfg field_path && !(Node.isDictB x) then
        Node.dict [("type", Node.str "array"),
                   ("items", Node.dict [("type", Node.str "string")]),
                   ("uniqueItems", Node.bool true),
                   ("default", Node.list (x :: xs)),
                   ("enum_values", Node.list (x :: xs)),
                   ("title", Node.str (get_title cfg field_path))]
      else
        match x with
        | Node.dict sample =>
            let item_schema :=
              process_value cfg (Node.dict sample) (field_path ++ "[0]")
            let item_title0 := get_title cfg (field_path ++ "[0]")
            let item_title :=
              if item_title0 = get_title_from_path (field_path ++ "[0]") then
                let auto := rstripS (get_title cfg field_path)
                if auto = get_title cfg field_path then auto ++ " Item" else auto
              else item_title0
            Node.dict [("type", Node.str "array"),
                       ("items", setField item_schema "title" (Node.str item_title)),
                       ("title", Node.str (get_title cfg field_path))]
        | _ =>
            Node.dict [("type", Node.str "array"),
                       ("items", get_type_schema x),
                       ("title", Node.str (get_title cfg field_path))]
  | v, field_path =>
      setField (get_type_schema v) "title" (Node.str (get_title cfg field_path))
termination_by v _ => sizeOf v

/-- `process_object` inside `create_json_schema`: properties of a mapping,
each entry classified, then decorated with `readOnly` and `description`. -/
def process_object (cfg : Config) : List (String × Node) → String → List (String × Node)
  | [], _ => []
  | (key, value) :: rest, current_path =>
      let field_path := joinKey current_path key
      let prop0 := process_value cfg value field_path
      let prop1 :=
        if is_readonly cfg field_path then setField prop0 "readOnly" (Node.bool true)
        else prop0
      let prop2 :=
        match get_description cfg field_path with
        | some d => if d = "" then prop1 else setField prop1 "description" (Node.str d)
        | none => prop1
      (key, prop2) :: process_object cfg rest current_path
termination_by es _ => sizeOf es

end

/-- Python truthiness of a YAML value, as used by `values or {}` and the
`if ui_config:` / `if sections_config:` guards. -/
def truthy : Node → Bool
  | Node.null => false
  | Node.bool b => b
  | Node.int n => n != 0
  | Node.float m => m != 0
  | Node.str s => !s.isEmpty
  | Node.list xs => !xs.isEmpty
  | Node.dict es => !es.isEmpty

/-- `create_json_schema`: the root object schema with pass-through metadata. -/
def create_json_schema (cfg : Config) (yaml_data : List (String × Node)) : Node :=
  let base := [("type", Node.str "object"),
               ("properties", Node.dict []),
               ("required", Node.list [])]
  let base1 :=
    if truthy (Node.dict cfg.ui_config) then
      base ++ [("ui_metadata", Node.dict cfg.ui_config)]
    else base
  let base2 :=
    if truthy (Node.list cfg.sections_config) then
      base1 ++ [("sections", Node.list cfg.sections_config)]
    else base1
  Node.dict (setKey base2 "properties" (Node.dict (process_object cfg yaml_data "")))

/-- The `/schema` endpoint core: `values = yaml.safe_load(file) or {}` then
`create_json_schema(values)`.  `none` models a file whose YAML load yields
`None`; a truthy non-mapping tree makes `process_object` fail in the source
(`.items()` on a non-dict), modelled as `none` in the result. -/
def get_schema (cfg : Config) (loaded : Option Node) : Option Node :=
  let values := match loaded with
    | none => Node.dict []
    | some v => if truthy v then v else Node.dict []
  match values with
  | Node.dict es => some (create_json_schema cfg es)
  | _ => none

/-- `is_protected_field` inside `update_values`: an exact, non-normalized
membership test of the accumulated field path in `readonly_fields`. -/
def is_protected_field (cfg : Config) (field_path : String) : Bool :=
  memStr cfg.readonly_fields field_path

mutual

/-- `update_nested_dict` inside `update_values`: walk the update entries in
order, mutating `current`; each entry is applied by `update_entry`. -/
def update_nested_dict (cfg : Config) :
    List (String × Node) → List (String × Node) → String → List (String × Node)
  | current, [], _ => current
  | current, (key, value) :: rest, current_path =>
      update_nested_dict cfg (update_entry cfg current key value current_path)
        rest current_path
termination_by _ updates _ => sizeOf updates

/-- The loop body of `update_nested_dict` for one update entry: a read-only
accumulated field path is skipped, an aligned dict/dict entry recurses, an
enum-listed bare key whose current value is a list is skipped, anything else
is assigned wholesale. -/
def update_entry (cfg : Config) (current : List (String × Node)) (key : String)
    (value : Node) (current_path : String) : List (String × Node) :=
  let field_path := joinKey current_path key
  if is_protected_field cfg field_path then current
  else
    match value, getKey current key with
    | Node.dict u, some (Node.dict c) =>
        setKey current key (Node.dict (update_nested_dict cfg c u field_path))
    | v, cv =>
        if memStr cfg.enum_fields key && isSeqO cv then current
        else setKey current key v
termination_by sizeOf value

end

/-- One segment of a concrete field path: a mapping key or a sequence index
(spec §3, "Field Path"). -/
inductive PSeg where
  | key : String → PSeg
  | idx : Nat → PSeg
  deriving Repr

/-- The value reachable in a values tree at a concrete field path (spec §3):
keys step through mappings, bracketed ordinals step through sequences. -/
def lookupPath : Node → List PSeg → Option Node
  | v, [] => some v
  | Node.dict es, PSeg.key k :: rest =>
      match getKey es k with
      | some v => lookupPath v rest
      | none => none
  | Node.list xs, PSeg.idx n :: rest =>
      match xs[n]? with
      | some v => lookupPath v rest
      | none => none
  | _, _ => none

/-- The keys of a mapping node, in order. -/
def keysOf (es : List (String × Node)) : List String :=
  es.map Prod.fst

/-- No key occurs twice (what the values-source collaborator guarantees for
trees parsed from YAML/JSON mappings, spec §6). -/
def nodupB : List String → Bool
  | [] => true
  | k :: rest => !(memStr rest k) && nodupB rest

/-- The update tree leaves the dotted key path untouched: at the first path
key it either supplies nothing, or both trees hold aligned mapping nodes (the
update one duplicate-free) and the rest of the path is untouched below. -/
def untouchedPath : List (String × Node) → List (String × Node) → List String → Bool
  | _, _, [] => false
  | _, updates, [k] => (getKey updates k).isNone
  | current, updates, k :: rest =>
      match getKey updates k with
      | none => true
      | some (Node.dict u) =>
          match getKey current k with
          | some (Node.dict c) => nodupB (keysOf u) && untouchedPath c u rest
          | _ => false
      | some _ => false

/-- A well-formed path string, as characters: alternating free text (no `[`)
and bracketed ordinal segments `[digits]` (spec §3, §4.1). -/
inductive WfSeg where
  | txt : List Char → WfSeg
  | ord : List Char → WfSeg

/-- Render a list of well-formed path segments to the raw character string. -/
def renderSegs : List WfSeg → List Char
  | [] => []
  | WfSeg.txt s :: rest => s ++ renderSegs rest
  | WfSeg.ord d :: rest => '[' :: (d ++ ']' :: renderSegs rest)

/-- Side condition making `renderSegs` a well-formed path: text segments are
bracket-free, ordinal segments are non-empty digit runs. -/
def segsOK : List WfSeg → Prop
  | [] => True
  | WfSeg.txt s :: rest => '[' ∉ s ∧ segsOK rest
  | WfSeg.ord d :: rest => d ≠ [] ∧ (∀ c ∈ d, c.isDigit) ∧ segsOK rest

/-- The text segments of a well-formed path, i.e. its normalized form. -/
def dropOrds : List WfSeg → List Char
  | [] => []
  | WfSeg.txt s :: rest => s ++ dropOrds rest
  | WfSeg.ord _ :: rest => dropOrds rest

/-- The item-title fallback rule the source implements for arrays of objects:
`title.rstrip('s')`, i.e. every trailing `'s'` character removed, with
`" Item"` appended when that removed nothing. -/
def itemTitleRule (t : String) : String :=
  if rstripS t = t then t ++ " Item" else rstripS t

example : normalize_path "servers[0].name" = "servers.name" := by decide
example : normalize_path "image.repository" = "image.repository" := by decide
example : normalize_path "[0[1]]" = "[0]" := by decide
example : normalize_path "[0]" = "" := by decide
example : get_title_from_path "servers[0]" = "Servers" := by decide
example : get_title_from_path "camelCase_x" = "Camel Case X" := by decide
example : rstripS "Address" = "Addre" := by decide
example : rstripS "Servers" = "Server" := by decide

theorem getKey_setKey_self (es : List (String × Node)) (k : String) (v : Node) :
    getKey (setKey es k v) k = some v := by
  induction es with
  | nil => simp [setKey, getKey]
  | cons e rest ih =>
      obtain ⟨k', w⟩ := e
      by_cases h : k' = k
      · simp [setKey, getKey, h]
      · simp [setKey, getKey, h, ih]

theorem getKey_setKey_ne (es : List (String × Node)) (k key : String) (v : Node)
    (h : ¬ k = key) : getKey (setKey es key v) k = getKey es k := by
  induction es with
  | nil =>
      simp only [setKey, getKey]
      rw [if_neg fun e => h e.symm]
  | cons e rest ih =>
      obtain ⟨k', w⟩ := e
      by_cases h' : k' = key
      · subst h'
        simp only [setKey, getKey, if_pos rfl]
        rw [if_neg fun e => h e.symm, if_neg fun e => h e.symm]
      · simp only [setKey, getKey, if_neg h']
        by_cases h'' : k' = k
        · simp only [getKey, if_pos h'']
        · simp only [getKey, if_neg h'', ih]

theorem getKey_setKey_isSome (es : List (String × Node)) (k key : String) (v : Node)
    (h : (getKey es k).isSome = true) : (getKey (setKey es key v) k).isSome = true := by
  by_cases hk : k = key
  · subst hk; rw [getKey_setKey_self]; rfl
  · rw [getKey_setKey_ne es k key v hk]; exact h

theorem update_entry_protected (cfg : Config) (current : List (String × Node))
    (key : String) (value : Node) (path : String)
    (h : is_protected_field cfg (joinKey path key) = true) :
    update_entry cfg current key value path = current := by
  rw [update_entry.eq_def, if_pos h]

theorem update_entry_getKey_ne (cfg : Config) (current : List (String × Node))
    (key : String) (value : Node) (path : String) (k : String) (h : ¬ k = key) :
    getKey (update_entry cfg current key value path) k = getKey current k := by
  simp only [update_entry.eq_def]
  repeat' split
  all_goals first
    | rfl
    | rw [getKey_setKey_ne _ _ _ _ h]

theorem update_entry_getKey_isSome (cfg : Config) (current : List (String × Node))
    (key : String) (value : Node) (path : String) (k : String)
    (h : (getKey current k).isSome = true) :
    (getKey (update_entry cfg current key value path) k).isSome = true := by
  simp only [update_entry.eq_def]
  repeat' split
  all_goals first
    | exact h
    | exact getKey_setKey_isSome _ _ _ _ h

theorem update_entry_enum_seq (cfg : Config) (current : List (String × Node))
    (key : String) (value : Node) (path : String) (xs : List Node)
    (hen : memStr cfg.enum_fields key = true)
    (hcur : getKey current key = some (Node.list xs)) :
    update_entry cfg current key value path = current := by
  simp only [update_entry.eq_def, hcur, hen, isSeqO, Bool.true_and, if_true]
  split <;> rfl

theorem update_entry_dict_dict (cfg : Config) (current : List (String × Node))
    (key : String) (u c : List (String × Node)) (path : String)
    (hro : is_protected_field cfg (joinKey path key) = false)
    (hcur : getKey current key = some (Node.dict c)) :
    update_entry cfg current key (Node.dict u) path =
      setKey current key
        (Node.dict (update_nested_dict cfg c u (joinKey path key))) := by
  rw [update_entry.eq_def, if_neg (by rw [hro]; exact fun hh => Bool.noConfusion hh), hcur]

theorem getKey_cons_none (k' : String) (w : Node) (rest : List (String × Node))
    (key : String) (h : getKey ((k', w) :: rest) key = none) :
    ¬ key = k' ∧ getKey rest key = none := by
  by_cases hk : k' = key
  · rw [getKey, if_pos hk] at h
    exact absurd h (by simp)
  · rw [getKey, if_neg hk] at h
    exact ⟨fun e => hk e.symm, h⟩

theorem memStr_keysOf_getKey_none (es : List (String × Node)) (key : String)
    (h : memStr (keysOf es) key = false) : getKey es key = none := by
  induction es with
  | nil => rfl
  | cons e rest ih =>
      obtain ⟨k', w⟩ := e
      rw [keysOf, List.map_cons, memStr] at h
      by_cases hk : k' = key
      · rw [if_pos hk] at h
        exact absurd h (by simp)
      · rw [if_neg hk] at h
        rw [getKey, if_neg hk]
        exact ih h

theorem und_getKey_ro (cfg : Config) (updates : List (String × Node)) :
    ∀ current path key, memStr cfg.readonly_fields (joinKey path key) = true →
      getKey (update_nested_dict cfg current updates path) key = getKey current key := by
  induction updates with
  | nil =>
      intro current path key _
      rw [update_nested_dict]
  | cons e rest ih =>
      intro current path key h
      obtain ⟨k, v⟩ := e
      rw [update_nested_dict]
      by_cases hk : k = key
      · subst hk
        rw [update_entry_protected cfg current k v path h]
        exact ih current path k h
      · rw [ih _ path key h, update_entry_getKey_ne cfg current k v path key
          fun e => hk e.symm]

theorem und_getKey_absent (cfg : Config) (updates : List (String × Node)) :
    ∀ current path key, getKey updates key = none →
      getKey (update_nested_dict cfg current updates path) key = getKey current key := by
  induction updates with
  | nil =>
      intro current path key _
      rw [update_nested_dict]
  | cons e rest ih =>
      intro current path key h
      obtain ⟨k, v⟩ := e
      obtain ⟨hne, hrest⟩ := getKey_cons_none k v rest key h
      rw [update_nested_dict, ih _ path key hrest,
        update_entry_getKey_ne cfg current k v path key hne]

theorem und_getKey_enum_seq (cfg : Config) (updates : List (String × Node)) :
    ∀ current path key xs, memStr cfg.enum_fields key = true →
      getKey current key = some (Node.list xs) →
      getKey (update_nested_dict cfg current updates path) key = some (Node.list xs) := by
  induction updates with
  | nil =>
      intro current path key xs _ hcur
      rw [update_nested_dict]
      exact hcur
  | cons e rest ih =>
      intro current path key xs hen hcur
      obtain ⟨k, v⟩ := e
      rw [update_nested_dict]
      by_cases hk : k = key
      · subst hk
        rw [update_entry_enum_seq cfg current k v path xs hen hcur]
        exact ih current path k xs hen hcur
      · exact ih _ path key xs hen
          (by rw [update_entry_getKey_ne cfg current k v path key fun e => hk e.symm]
              exact hcur)

theorem und_getKey_isSome (cfg : Config) (updates : List (String × Node)) :
    ∀ current path key, (getKey current key).isSome = true →
      (getKey (update_nested_dict cfg current updates path) key).isSome = true := by
  induction updates with
  | nil =>
      intro current path key h
      rw [update_nested_dict]
      exact h
  | cons e rest ih =>
      intro current path key h
      obtain ⟨k, v⟩ := e
      rw [update_nested_dict]
      exact ih _ path key (update_entry_getKey_isSome cfg current k v path key h)

theorem und_getKey_dict_entry (cfg : Config) (updates : List (String × Node)) :
    ∀ current path key u c,
      nodupB (keysOf updates) = true →
      getKey updates key = some (Node.dict u) →
      getKey current key = some (Node.dict c) →
      is_protected_field cfg (joinKey path key) = false →
      getKey (update_nested_dict cfg current updates path) key =
        some (Node.dict (update_nested_dict cfg c u (joinKey path key))) := by
  induction updates with
  | nil =>
      intro current path key u c _ habs _ _
      exact absurd habs (by simp [getKey])
  | cons e rest ih =>
      intro current path key u c hnd hupd hcur hro
      obtain ⟨k, v⟩ := e
      rw [keysOf, List.map_cons, nodupB, Bool.and_eq_true] at hnd
      obtain ⟨hnd1, hnd2⟩ := hnd
      simp only [Bool.not_eq_true'] at hnd1
      rw [update_nested_dict]
      by_cases hk : k = key
      · subst hk
        rw [getKey, if_pos rfl] at hupd
        obtain rfl : v = Node.dict u := by injection hupd
        have hrest : getKey rest k = none := memStr_keysOf_getKey_none rest k hnd1
        rw [und_getKey_absent cfg rest _ path k hrest,
          update_entry_dict_dict cfg current k u c path hro hcur,
          getKey_setKey_self]
      · rw [getKey, if_neg hk] at hupd
        exact ih _ path key u c hnd2 hupd
          (by rw [update_entry_getKey_ne cfg current k v path key fun e => hk e.symm]
              exact hcur) hro

theorem und_lookup_untouched (cfg : Config) :
    ∀ ks (current updates : List (String × Node)) path,
      nodupB (keysOf updates) = true →
      untouchedPath current updates ks = true →
      lookupPath (Node.dict (update_nested_dict cfg current updates path))
          (ks.map PSeg.key) =
        lookupPath (Node.dict current) (ks.map PSeg.key) := by
  intro ks
  induction ks with
  | nil =>
      intro current updates path _ habs
      exact absurd habs (by simp [untouchedPath])
  | cons k tail ih =>
      intro current updates path hnd hun
      cases tail with
      | nil =>
          simp only [untouchedPath, Option.isNone_iff_eq_none] at hun
          simp only [List.map_cons, List.map_nil, lookupPath]
          rw [und_getKey_absent cfg updates current path k hun]
      | cons k2 rest =>
          simp only [untouchedPath] at hun
          cases hget : getKey updates k with
          | none =>
              simp only [List.map_cons, lookupPath]
              rw [und_getKey_absent cfg updates current path k hget]
          | some v =>
              rw [hget] at hun
              cases v with
              | null => simp at hun
              | bool b => simp at hun
              | int n => simp at hun
              | float m => simp at hun
              | str s => simp at hun
              | list xs => simp at hun
              | dict u =>
                  cases hcur : getKey current k with
                  | none => rw [hcur] at hun; simp at hun
                  | some w =>
                      rw [hcur] at hun
                      cases w with
                      | null => simp at hun
                      | bool b => simp at hun
                      | int n => simp at hun
                      | float m => simp at hun
                      | str s => simp at hun
                      | list xs => simp at hun
                      | dict c =>
                          simp only [Bool.and_eq_true] at hun
                          by_cases hro : is_protected_field cfg (joinKey path k) = true
                          · simp only [List.map_cons, lookupPath]
                            rw [und_getKey_ro cfg updates current path k hro]
                          · have hro2 : is_protected_field cfg (joinKey path k) = false := by
                              cases hx : is_protected_field cfg (joinKey path k)
                              · rfl
                              · exact absurd hx hro
                            simp only [List.map_cons, lookupPath]
                            rw [und_getKey_dict_entry cfg updates current path k u c hnd
                              hget hcur hro2, hcur]
                            exact ih c u (joinKey path k) hun.1 hun.2

/-- C1: the claim as stated is false on the code.  With `servers.name` in
`readonly_fields`, the value at the array-indexed occurrence
`servers[0].name` (which normalizes to the protected path) is changed by the
merge: the enclosing array is replaced wholesale, because
`is_protected_field` compares the exact accumulated path and the merge never
descends into sequences. -/
theorem merge_readonly_indexed_path_not_protected :
    normalize_path "servers[0].name" = "servers.name" ∧
    memStr ["servers.name"] "servers.name" = true ∧
    lookupPath (Node.dict [("servers", Node.list [Node.dict [("name", Node.str "a")]])])
      [PSeg.key "servers", PSeg.idx 0, PSeg.key "name"] = some (Node.str "a") ∧
    lookupPath
      (Node.dict (update_nested_dict ⟨["servers.name"], [], [], [], [], []⟩
        [("servers", Node.list [Node.dict [("name", Node.str "a")]])]
        [("servers", Node.list [Node.dict [("name", Node.str "evil")]])] ""))
      [PSeg.key "servers", PSeg.idx 0, PSeg.key "name"] = some (Node.str "evil") := by
  have hm : update_nested_dict ⟨["servers.name"], [], [], [], [], []⟩
      [("servers", Node.list [Node.dict [("name", Node.str "a")]])]
      [("servers", Node.list [Node.dict [("name", Node.str "evil")]])] "" =
      [("servers", Node.list [Node.dict [("name", Node.str "evil")]])] := by
    rw [update_nested_dict, update_nested_dict, update_entry.eq_def]
    rfl
  refine ⟨by decide, by decide, by rfl, ?_⟩
  rw [hm]
  rfl

/-- C1 (amended): merge protection is keyed on the exact accumulated dotted
field path, with no normalization: at every recursion level, a key whose
accumulated path is literally in `readonly_fields` keeps its current value,
regardless of the update's content there. -/
theorem merge_readonly_exact_path_skipped (cfg : Config)
    (current updates : List (String × Node)) (path key : String)
    (h : memStr cfg.readonly_fields (joinKey path key) = true) :
    getKey (update_nested_dict cfg current updates path) key = getKey current key :=
  und_getKey_ro cfg updates current path key h

/-- C1 witness: the spec scenario, at the recursion level below `image`. -/
theorem merge_readonly_exact_path_skipped_witness :
    memStr ["image.repository"] (joinKey "image" "repository") = true ∧
    getKey (update_nested_dict ⟨["image.repository"], [], [], [], [], []⟩
        [("repository", Node.str "nginx"), ("tag", Node.str "1.0")]
        [("repository", Node.str "custom"), ("tag", Node.str "2.0")] "image")
      "repository" =
      getKey [("repository", Node.str "nginx"), ("tag", Node.str "1.0")] "repository" :=
  ⟨by decide, merge_readonly_exact_path_skipped _ _ _ _ _ (by decide)⟩

/-- C2: the claim as stated is false on the code.  With the dotted path
`a.b` in `enum_fields` and a sequence at `a.b` in the current tree, the
merge replaces the sequence: the enum check compares the bare key `b`, never
the accumulated path, so `a.b` never matches. -/
theorem merge_enum_dotted_path_not_protected :
    memStr ["a.b"] "a.b" = true ∧
    lookupPath (Node.dict [("a", Node.dict [("b", Node.list [Node.str "x"])])])
      [PSeg.key "a", PSeg.key "b"] = some (Node.list [Node.str "x"]) ∧
    lookupPath (Node.dict (update_nested_dict ⟨[], ["a.b"], [], [], [], []⟩
        [("a", Node.dict [("b", Node.list [Node.str "x"])])]
        [("a", Node.dict [("b", Node.list [Node.str "y"])])] ""))
      [PSeg.key "a", PSeg.key "b"] = some (Node.list [Node.str "y"]) := by
  have hinner : update_nested_dict ⟨[], ["a.b"], [], [], [], []⟩
      [("b", Node.list [Node.str "x"])] [("b", Node.list [Node.str "y"])]
      (joinKey "" "a") = [("b", Node.list [Node.str "y"])] := by
    rw [update_nested_dict, update_nested_dict, update_entry.eq_def]
    rfl
  have hm : update_nested_dict ⟨[], ["a.b"], [], [], [], []⟩
      [("a", Node.dict [("b", Node.list [Node.str "x"])])]
      [("a", Node.dict [("b", Node.list [Node.str "y"])])] "" =
      [("a", Node.dict [("b", Node.list [Node.str "y"])])] := by
    rw [update_nested_dict, update_nested_dict,
      update_entry_dict_dict ⟨[], ["a.b"], [], [], [], []⟩
        [("a", Node.dict [("b", Node.list [Node.str "x"])])] "a"
        [("b", Node.list [Node.str "y"])] [("b", Node.list [Node.str "x"])] ""
        (by decide) (by rfl),
      hinner]
    rfl
  refine ⟨by decide, by rfl, ?_⟩
  rw [hm]
  rfl

/-- C2 (amended): enum protection is keyed on the bare final key name, with
no path accumulation and no normalization: whenever a key is literally in
`enum_fields` and the current value at that key is a sequence, the sequence
survives the merge unchanged, at every recursion level. -/
theorem merge_enum_bare_key_sequence_preserved (cfg : Config)
    (current updates : List (String × Node)) (path key : String) (xs : List Node)
    (hen : memStr cfg.enum_fields key = true)
    (hcur : getKey current key = some (Node.list xs)) :
    getKey (update_nested_dict cfg current updates path) key = some (Node.list xs) :=
  und_getKey_enum_seq cfg updates current path key xs hen hcur

/-- C2 witness: the spec scenario for `environments`. -/
theorem merge_enum_bare_key_sequence_preserved_witness :
    memStr ["environments"] "environments" = true ∧
    getKey (update_nested_dict ⟨[], ["environments"], [], [], [], []⟩
        [("environments", Node.list [Node.str "dev", Node.str "staging", Node.str "prod"])]
        [("environments", Node.list [Node.str "hacked"])] "")
      "environments" =
      some (Node.list [Node.str "dev", Node.str "staging", Node.str "prod"]) :=
  ⟨by decide, merge_enum_bare_key_sequence_preserved _ _ _ _ _ _ (by decide) (by rfl)⟩

/-- C3: the claim as stated is false on the code.  The key path `a.b` is
present in the current tree and absent from the update tree, yet after the
merge it no longer resolves: the update supplies a scalar at the enclosing
key `a`, which is replaced wholesale. -/
theorem merge_replaced_parent_drops_nested_path :
    lookupPath (Node.dict [("a", Node.dict [("b", Node.str "x")])])
      [PSeg.key "a", PSeg.key "b"] = some (Node.str "x") ∧
    lookupPath (Node.dict [("a", Node.int 5)]) [PSeg.key "a", PSeg.key "b"] = none ∧
    lookupPath (Node.dict (update_nested_dict ⟨[], [], [], [], [], []⟩
        [("a", Node.dict [("b", Node.str "x")])] [("a", Node.int 5)] ""))
      [PSeg.key "a", PSeg.key "b"] = none := by
  have hm : update_nested_dict ⟨[], [], [], [], [], []⟩
      [("a", Node.dict [("b", Node.str "x")])] [("a", Node.int 5)] "" =
      [("a", Node.int 5)] := by
    rw [update_nested_dict, update_nested_dict, update_entry.eq_def]
    rfl
  refine ⟨by rfl, by rfl, ?_⟩
  rw [hm]
  rfl

/-- C3 (amended): a dotted key path that the update tree leaves untouched —
at its first key the update supplies nothing, or both trees hold aligned
mapping nodes (duplicate-free on the update side) and the path is untouched
below — resolves to the identical value after the merge; and merge never
deletes a key: every key present in a mapping it processes is still present
afterwards. -/
theorem merge_untouched_paths_preserved :
    (∀ (cfg : Config) (current updates : List (String × Node)) (path : String)
        (ks : List String),
      nodupB (keysOf updates) = true →
      untouchedPath current updates ks = true →
      lookupPath (Node.dict (update_nested_dict cfg current updates path))
          (ks.map PSeg.key) =
        lookupPath (Node.dict current) (ks.map PSeg.key)) ∧
    (∀ (cfg : Config) (current updates : List (String × Node)) (path key : String),
      (getKey current key).isSome = true →
      (getKey (update_nested_dict cfg current updates path) key).isSome = true) :=
  ⟨fun cfg current updates path ks h1 h2 =>
      und_lookup_untouched cfg ks current updates path h1 h2,
   fun cfg current updates path key h =>
      und_getKey_isSome cfg updates current path key h⟩

/-- C3 witness: `a.b` untouched while `a.c` is updated; `a` stays present. -/
theorem merge_untouched_paths_preserved_witness :
    lookupPath (Node.dict (update_nested_dict ⟨[], [], [], [], [], []⟩
        [("a", Node.dict [("b", Node.str "x"), ("c", Node.str "z")])]
        [("a", Node.dict [("c", Node.str "w")])] ""))
      [PSeg.key "a", PSeg.key "b"] =
      lookupPath (Node.dict [("a", Node.dict [("b", Node.str "x"), ("c", Node.str "z")])])
        [PSeg.key "a", PSeg.key "b"] ∧
    (getKey (update_nested_dict ⟨[], [], [], [], [], []⟩
        [("a", Node.dict [("b", Node.str "x"), ("c", Node.str "z")])]
        [("a", Node.dict [("c", Node.str "w")])] "") "a").isSome = true :=
  ⟨merge_untouched_paths_preserved.1 _ _ _ _ ["a", "b"] (by rfl) (by rfl),
   merge_untouched_paths_preserved.2 _ _ _ _ "a" (by rfl)⟩

/-- C10: during merge, enum protection is keyed on the bare key name alone:
an update entry whose key is literally in `enum_fields` and whose current
value is a sequence is skipped at every nesting depth, even when its full
accumulated dotted path is not an enum path. -/
theorem merge_enum_skip_keyed_on_bare_key (cfg : Config)
    (current updates : List (String × Node)) (path key : String) (value : Node)
    (xs : List Node)
    (_hmem : (key, value) ∈ updates)
    (hkey : memStr cfg.enum_fields key = true)
    (_hpath : memStr cfg.enum_fields (joinKey path key) = false)
    (hcur : getKey current key = some (Node.list xs)) :
    getKey (update_nested_dict cfg current updates path) key = some (Node.list xs) :=
  und_getKey_enum_seq cfg updates current path key xs hkey hcur

/-- C10 witness: bare key `b` in `enum_fields`, full path `a.b` not. -/
theorem merge_enum_skip_keyed_on_bare_key_witness :
    memStr ["b"] "b" = true ∧
    memStr ["b"] (joinKey "a" "b") = false ∧
    getKey (update_nested_dict ⟨[], ["b"], [], [], [], []⟩
        [("b", Node.list [Node.str "x"])] [("b", Node.list [Node.str "y"])] "a")
      "b" = some (Node.list [Node.str "x"]) :=
  ⟨by decide, by decide,
   merge_enum_skip_keyed_on_bare_key _ _ _ _ _ (Node.list [Node.str "y"]) _
     (by simp) (by decide) (by decide) (by rfl)⟩

theorem stripIdxAux_no_bracket : ∀ ys : List Char, '[' ∉ ys →
    stripIdxAux ys none = ys := by
  intro ys
  induction ys with
  | nil => intro _; rfl
  | cons c cs ih =>
      intro h
      rw [List.mem_cons] at h
      push_neg at h
      rw [stripIdxAux, if_neg fun e => h.1 e.symm, ih h.2]

theorem stripIdxAux_append_txt : ∀ s ys : List Char, '[' ∉ s →
    stripIdxAux (s ++ ys) none = s ++ stripIdxAux ys none := by
  intro s
  induction s with
  | nil => intro ys _; rfl
  | cons c cs ih =>
      intro ys h
      rw [List.mem_cons] at h
      push_neg at h
      rw [List.cons_append, stripIdxAux, if_neg fun e => h.1 e.symm, ih ys h.2,
        List.cons_append]

theorem stripIdxAux_ord (ys : List Char) : ∀ d acc : List Char,
    (∀ c ∈ d, c.isDigit) → (acc ≠ [] ∨ d ≠ []) →
    stripIdxAux (d ++ ']' :: ys) (some acc) = stripIdxAux ys none := by
  intro d
  induction d with
  | nil =>
      intro acc _ hor
      have hacc : acc.isEmpty = false := by
        rcases hor with h | h
        · cases acc
          · exact absurd rfl h
          · rfl
        · exact absurd rfl h
      simp [stripIdxAux, hacc]
  | cons c d ihd =>
      intro acc hdig hor
      rw [List.cons_append, stripIdxAux, if_pos (hdig c (List.mem_cons_self c d))]
      exact ihd (c :: acc) (fun x hx => hdig x (List.mem_cons_of_mem c hx))
        (Or.inl (by simp))

theorem stripIdxAux_renderSegs : ∀ segs, segsOK segs →
    stripIdxAux (renderSegs segs) none = dropOrds segs := by
  intro segs
  induction segs with
  | nil => intro _; rfl
  | cons seg rest ih =>
      intro h
      cases seg with
      | txt s =>
          obtain ⟨h1, h2⟩ := h
          rw [renderSegs, dropOrds, stripIdxAux_append_txt s _ h1, ih h2]
      | ord d =>
          obtain ⟨h1, h2, h3⟩ := h
          rw [renderSegs, dropOrds, stripIdxAux, if_pos rfl,
            stripIdxAux_ord (renderSegs rest) d [] h2 (Or.inr h1), ih h3]

theorem dropOrds_no_bracket : ∀ segs, segsOK segs → '[' ∉ dropOrds segs := by
  intro segs
  induction segs with
  | nil => intro _; simp [dropOrds]
  | cons seg rest ih =>
      intro h
      cases seg with
      | txt s =>
          obtain ⟨h1, h2⟩ := h
          rw [dropOrds]
          intro hmem
          rcases List.mem_append.mp hmem with hm | hm
          · exact h1 hm
          · exact ih h2 hm
      | ord d =>
          obtain ⟨_, _, h3⟩ := h
          rw [dropOrds]
          exact ih h3

/-- C7: the claim as stated is false on the code.  `normalize_path` removes
bracketed digit groups in a single left-to-right pass and never rescans, so
removing an inner group can create a new `[digits]` group spanning the splice
point: `"[0[1]]"` normalizes to `"[0]"`, which normalizes further to `""`. -/
theorem normalize_path_not_idempotent :
    normalize_path (normalize_path "[0[1]]") ≠ normalize_path "[0[1]]" := by decide

/-- C7 (amended): normalization is idempotent on every well-formed path, i.e.
any string alternating bracket-free text with bracketed ordinal segments
`[digits]`; the general statement over all strings fails on inputs with
nested bracket groups. -/
theorem normalize_path_idempotent_wf (segs : List WfSeg) (h : segsOK segs) :
    normalize_path (normalize_path (String.mk (renderSegs segs))) =
      normalize_path (String.mk (renderSegs segs)) := by
  simp only [normalize_path]
  rw [stripIdxAux_renderSegs segs h,
    stripIdxAux_no_bracket _ (dropOrds_no_bracket segs h)]

/-- C7 witness: the well-formed path `servers[0].name`. -/
theorem normalize_path_idempotent_wf_witness :
    segsOK [WfSeg.txt "servers".data, WfSeg.ord "0".data, WfSeg.txt ".name".data] ∧
    normalize_path (normalize_path (String.mk (renderSegs
        [WfSeg.txt "servers".data, WfSeg.ord "0".data, WfSeg.txt ".name".data]))) =
      normalize_path (String.mk (renderSegs
        [WfSeg.txt "servers".data, WfSeg.ord "0".data, WfSeg.txt ".name".data])) :=
  ⟨⟨by decide, by decide, by decide, by decide, trivial⟩,
   normalize_path_idempotent_wf _ ⟨by decide, by decide, by decide, by decide, trivial⟩⟩

/-- C8: scalar nodes are classified by runtime value kind with the priority
boolean before integer before floating-point before string: booleans get the
boolean schema (never the integer one), integers the integer schema, floats
the number schema, and every other scalar kind (null included) defaults to
the string classification. -/
theorem scalar_type_priority :
    (∀ b, get_type_schema (Node.bool b) = Node.dict [("type", Node.str "boolean")]) ∧
    (∀ b, get_type_schema (Node.bool b) ≠ Node.dict [("type", Node.str "integer")]) ∧
    (∀ n, get_type_schema (Node.int n) = Node.dict [("type", Node.str "integer")]) ∧
    (∀ m, get_type_schema (Node.float m) = Node.dict [("type", Node.str "number")]) ∧
    (∀ s, get_type_schema (Node.str s) = Node.dict [("type", Node.str "string")]) ∧
    get_type_schema Node.null = Node.dict [("type", Node.str "string")] := by
  refine ⟨fun b => rfl, fun b h => ?_, fun n => rfl, fun m => rfl, fun s => rfl, rfl⟩
  rw [get_type_schema] at h
  injection h with h
  injection h with h
  injection h with h1 h2
  injection h2 with h2
  simp at h2

/-- C9: the claim as stated is false on the code.  An absent (`None`) values
tree does synthesize without error, but the resulting schema is
`{"type": "object", "properties": {}, "required": []}` — the root schema
always carries the extra `required: []` entry, so it is not exactly
`{"type": "object", "properties": {}}`. -/
theorem empty_tree_schema_has_required :
    get_schema ⟨[], [], [], [], [], []⟩ none =
      some (Node.dict [("type", Node.str "object"),
                       ("properties", Node.dict []),
                       ("required", Node.list [])]) ∧
    get_schema ⟨[], [], [], [], [], []⟩ none ≠
      some (Node.dict [("type", Node.str "object"),
                       ("properties", Node.dict [])]) := by
  have h1 : get_schema ⟨[], [], [], [], [], []⟩ none =
      some (Node.dict [("type", Node.str "object"),
                       ("properties", Node.dict []),
                       ("required", Node.list [])]) := by
    simp [get_schema, create_json_schema, truthy, process_object, setKey]
  refine ⟨h1, ?_⟩
  rw [h1]
  intro h
  injection h with h
  simp at h

/-- C9 (amended): a missing/null or empty top-level values tree synthesizes,
without raising an error, to exactly
`{"type": "object", "properties": {}, "required": []}` whenever the
descriptor's sections and UI-hint bag are empty. -/
theorem empty_tree_schema (cfg : Config)
    (hs : cfg.sections_config = []) (hu : cfg.ui_config = []) :
    get_schema cfg none =
      some (Node.dict [("type", Node.str "object"),
                       ("properties", Node.dict []),
                       ("required", Node.list [])]) ∧
    get_schema cfg (some (Node.dict [])) =
      some (Node.dict [("type", Node.str "object"),
                       ("properties", Node.dict []),
                       ("required", Node.list [])]) := by
  constructor <;>
    simp [get_schema, create_json_schema, truthy, hs, hu, process_object, setKey]

/-- C9 witness: the all-empty descriptor. -/
theorem empty_tree_schema_witness :
    get_schema ⟨["x"], ["y"], [], [], [], []⟩ none =
      some (Node.dict [("type", Node.str "object"),
                       ("properties", Node.dict []),
                       ("required", Node.list [])]) ∧
    get_schema ⟨["x"], ["y"], [], [], [], []⟩ (some (Node.dict [])) =
      some (Node.dict [("type", Node.str "object"),
                       ("properties", Node.dict []),
                       ("required", Node.list [])]) :=
  empty_tree_schema _ (by rfl) (by rfl)

theorem setField_isDictB (n : Node) (k : String) (v : Node) :
    Node.isDictB (setField n k v) = Node.isDictB n := by
  cases n <;> rfl

theorem getField_setField_self (n : Node) (k : String) (v : Node)
    (hn : Node.isDictB n = true) : getField (setField n k v) k = some v := by
  cases n <;> simp_all [Node.isDictB, setField, getField, getKey_setKey_self]

theorem getField_setField_ne (n : Node) (k key : String) (v : Node)
    (h : ¬ k = key) : getField (setField n key v) k = getField n k := by
  cases n <;> simp [setField, getField, getKey_setKey_ne _ _ _ _ h]

theorem process_value_isDictB (cfg : Config) (v : Node) (fp : String) :
    Node.isDictB (process_value cfg v fp) = true := by
  cases v with
  | dict obj => rw [process_value.eq_1]; rfl
  | list xs =>
      cases xs with
      | nil => rw [process_value.eq_2]; rfl
      | cons x xs =>
          cases x with
          | dict a => rw [process_value.eq_3]; split <;> rfl
          | null =>
              rw [process_value.eq_4 _ _ _ _ fun a ha => Node.noConfusion ha]
              split <;> rfl
          | bool b =>
              rw [process_value.eq_4 _ _ _ _ fun a ha => Node.noConfusion ha]
              split <;> rfl
          | int n =>
              rw [process_value.eq_4 _ _ _ _ fun a ha => Node.noConfusion ha]
              split <;> rfl
          | float m =>
              rw [process_value.eq_4 _ _ _ _ fun a ha => Node.noConfusion ha]
              split <;> rfl
          | str s =>
              rw [process_value.eq_4 _ _ _ _ fun a ha => Node.noConfusion ha]
              split <;> rfl
          | list ys =>
              rw [process_value.eq_4 _ _ _ _ fun a ha => Node.noConfusion ha]
              split <;> rfl
  | null => simp [process_value, get_type_schema, setField, Node.isDictB]
  | bool b => simp [process_value, get_type_schema, setField, Node.isDictB]
  | int n => simp [process_value, get_type_schema, setField, Node.isDictB]
  | float m => simp [process_value, get_type_schema, setField, Node.isDictB]
  | str s => simp [process_value, get_type_schema, setField, Node.isDictB]

/-- C5: the claim as stated is false on the code.  The enum branch of
`process_value` only requires the first element not to be a mapping, so an
enum-marked sequence whose first element is itself a sequence (not a scalar)
still gets the enumeration schema with `uniqueItems` and the option list,
instead of the claimed normal array inference. -/
theorem enum_schema_on_nonscalar_first_element :
    is_enum ⟨[], ["envs"], [], [], [], []⟩ "envs" = true ∧
    getField (process_value ⟨[], ["envs"], [], [], [], []⟩
        (Node.list [Node.list [Node.str "a"]]) "envs") "enum_values" =
      some (Node.list [Node.list [Node.str "a"]]) ∧
    getField (process_value ⟨[], ["envs"], [], [], [], []⟩
        (Node.list [Node.list [Node.str "a"]]) "envs") "uniqueItems" =
      some (Node.bool true) := by
  refine ⟨by decide, ?_, ?_⟩ <;>
    (rw [process_value.eq_4 _ _ _ _ fun a ha => Node.noConfusion ha]
     rfl)

/-- C5 (amended): a non-empty sequence whose normalized path is enum-marked
and whose first element is not a mapping synthesizes to the enumeration array
schema: item type string, uniqueItems true, and the full element list as both
the default value and the enum option set; only a mapping first element falls
through to normal array inference. -/
theorem enum_marked_sequence_schema (cfg : Config) (fp : String) (x : Node)
    (xs : List Node) (he : is_enum cfg fp = true) (hx : Node.isDictB x = false) :
    process_value cfg (Node.list (x :: xs)) fp =
      Node.dict [("type", Node.str "array"),
                 ("items", Node.dict [("type", Node.str "string")]),
                 ("uniqueItems", Node.bool true),
                 ("default", Node.list (x :: xs)),
                 ("enum_values", Node.list (x :: xs)),
                 ("title", Node.str (get_title cfg fp))] := by
  have hx2 : ∀ a : List (String × Node), x = Node.dict a → False := by
    intro a ha
    rw [ha] at hx
    exact Bool.noConfusion hx
  rw [process_value.eq_4 _ _ _ _ hx2, if_pos (by rw [he, hx]; rfl)]

/-- C5 witness: the spec scenario for `environments`. -/
theorem enum_marked_sequence_schema_witness :
    is_enum ⟨[], ["environments"], [], [], [], []⟩ "environments" = true ∧
    process_value ⟨[], ["environments"], [], [], [], []⟩
        (Node.list [Node.str "dev", Node.str "staging", Node.str "prod"])
        "environments" =
      Node.dict [("type", Node.str "array"),
                 ("items", Node.dict [("type", Node.str "string")]),
                 ("uniqueItems", Node.bool true),
                 ("default", Node.list [Node.str "dev", Node.str "staging", Node.str "prod"]),
                 ("enum_values", Node.list [Node.str "dev", Node.str "staging", Node.str "prod"]),
                 ("title", Node.str (get_title ⟨[], ["environments"], [], [], [], []⟩
                    "environments"))] :=
  ⟨by decide, enum_marked_sequence_schema _ _ _ _ (by decide) (by decide)⟩

/-- C4: the claim as stated is false on the code.  The item-title fallback
uses Python `rstrip('s')`, which removes every trailing `'s'`: for an array
of objects under the key `address` (derived title `"Address"`), the
synthesized item title is `"Addre"`, not the claimed single-`s`-stripped
`"Addres"`. -/
theorem array_item_title_strips_all_trailing_s :
    get_title_from_path "address" = "Address" ∧
    getF (getF (some (process_value ⟨[], [], [], [], [], []⟩
        (Node.list [Node.dict [("x", Node.int 1)]]) "address")) "items") "title" =
      some (Node.str "Addre") ∧
    Node.str "Addre" ≠ Node.str "Addres" := by
  refine ⟨by decide, ?_, by intro h; injection h with h; simp at h⟩
  rw [process_value.eq_3, process_value.eq_1]
  rfl

/-- C4 (amended): when no custom title is configured for the array path or
its `[0]` index-path, the synthesized item title equals the array's derived
title with every trailing `'s'` character stripped, or with `" Item"`
appended when stripping removed nothing. -/
theorem array_item_title_fallback (cfg : Config) (fp : String)
    (sample : List (String × Node)) (xs : List Node)
    (h0 : lookupStr cfg.field_titles (normalize_path (fp ++ "[0]")) = none)
    (h1 : lookupStr cfg.field_titles (normalize_path fp) = none) :
    getField (process_value cfg (Node.list (Node.dict sample :: xs)) fp) "items" =
      some (setField (process_value cfg (Node.dict sample) (fp ++ "[0]")) "title"
        (Node.str (itemTitleRule (get_title_from_path fp)))) := by
  have e0 : get_title cfg (fp ++ "[0]") = get_title_from_path (fp ++ "[0]") := by
    rw [get_title, h0]
  have e1 : get_title cfg fp = get_title_from_path fp := by
    rw [get_title, h1]
  rw [process_value.eq_3, if_neg (by simp [Node.isDictB])]
  simp only [e0, e1, eq_self_iff_true, if_true, getField, getKey, itemTitleRule]
  rw [if_neg (by decide)]
  split
  · rename_i h
    rw [h]
  · rfl

/-- C4 witness: the spec scenario `servers`, title `"Servers"`, item title
`"Server"`. -/
theorem array_item_title_fallback_witness :
    getField (process_value ⟨[], [], [], [], [], []⟩
        (Node.list [Node.dict [("name", Node.str "a"), ("port", Node.int 80)]])
        "servers") "items" =
      some (setField (process_value ⟨[], [], [], [], [], []⟩
        (Node.dict [("name", Node.str "a"), ("port", Node.int 80)]) "servers[0]")
        "title" (Node.str (itemTitleRule (get_title_from_path "servers")))) :=
  array_item_title_fallback _ _ _ _ (by rfl) (by rfl)

/-- C6: the claim as stated is false on the code.  With `servers` read-only,
`is_readonly` holds of the item path `servers[0]` (it normalizes to
`servers`), yet the representative item schema at `servers[0]` carries no
`readOnly` flag: decoration happens only in `process_object`, which the item
schema never passes through.  The array node itself is decorated. -/
theorem item_schema_not_decorated :
    is_readonly ⟨["servers"], [], [], [], [], []⟩ "servers[0]" = true ∧
    getF (getF (getF (some (Node.dict (process_object ⟨["servers"], [], [], [], [], []⟩
        [("servers", Node.list [Node.dict [("name", Node.str "a")]])] "")))
      "servers") "items") "readOnly" = none ∧
    getF (getF (some (Node.dict (process_object ⟨["servers"], [], [], [], [], []⟩
        [("servers", Node.list [Node.dict [("name", Node.str "a")]])] "")))
      "servers") "readOnly" = some (Node.bool true) := by
  refine ⟨by decide, ?_, ?_⟩ <;>
    (rw [process_object, process_object, process_value.eq_3, process_value.eq_1]
     rfl)

/-- C6 (amended): every schema node produced as the property of a mapping
node — at any depth — carries `readOnly` whenever `is_readonly` holds of its
accumulated path, and carries the configured (non-empty) description of that
path, independently of its structural type; the representative item schema at
`<path>[0]` receives only a title, never its own `readOnly`/`description`. -/
theorem process_object_decoration (cfg : Config) (entries : List (String × Node)) :
    ∀ current_path key value, (key, value) ∈ entries →
      ∃ s, (key, s) ∈ process_object cfg entries current_path ∧
        (is_readonly cfg (joinKey current_path key) = true →
          getField s "readOnly" = some (Node.bool true)) ∧
        (∀ d, get_description cfg (joinKey current_path key) = some d → ¬ d = "" →
          getField s "description" = some (Node.str d)) := by
  induction entries with
  | nil => intro cp key value h; exact absurd h (by simp)
  | cons e rest ih =>
      obtain ⟨k0, v0⟩ := e
      intro cp key value hmem
      rw [List.mem_cons] at hmem
      rcases hmem with heq | htail
      · injection heq with hk hv
        subst hk
        subst hv
        rw [process_object]
        refine ⟨_, List.mem_cons_self _ _, fun hro => ?_, fun d hd hne => ?_⟩
        · cases hdesc : get_description cfg (joinKey cp key) with
          | none =>
              simp only [hdesc]
              rw [if_pos hro]
              exact getField_setField_self _ _ _ (process_value_isDictB cfg value _)
          | some d =>
              simp only [hdesc]
              by_cases hde : d = ""
              · rw [if_pos hde, if_pos hro]
                exact getField_setField_self _ _ _ (process_value_isDictB cfg value _)
              · rw [if_neg hde, getField_setField_ne _ _ _ _ (by decide), if_pos hro]
                exact getField_setField_self _ _ _ (process_value_isDictB cfg value _)
        · simp only [hd]
          rw [if_neg hne]
          apply getField_setField_self
          split
          · rw [setField_isDictB]
            exact process_value_isDictB cfg value _
          · exact process_value_isDictB cfg value _
      · obtain ⟨s, hs1, hs2, hs3⟩ := ih cp key value htail
        exact ⟨s, by rw [process_object]; exact List.mem_cons_of_mem _ hs1, hs2, hs3⟩

/-- C6 witness: property `a` read-only with description `da` configured. -/
theorem process_object_decoration_witness :
    ∃ s, ("a", s) ∈ process_object ⟨["a"], [], [], [("a", "da")], [], []⟩
        [("a", Node.str "x")] "" ∧
      (is_readonly ⟨["a"], [], [], [("a", "da")], [], []⟩ (joinKey "" "a") = true →
        getField s "readOnly" = some (Node.bool true)) ∧
      (∀ d, get_description ⟨["a"], [], [], [("a", "da")], [], []⟩ (joinKey "" "a") =
          some d → ¬ d = "" → getField s "description" = some (Node.str d)) :=
  process_object_decoration _ _ "" "a" (Node.str "x") (by simp)

end HelmUI
